import Mathlib

/-
  Verification of the value-marshalling core (src/core/convert.rs).

  The embedding models the engine ("V8") values as an inductive type, the
  conversion scope as a trivial token (all modelled engine operations are
  pure), machine integers as mathematical integers together with explicit
  width/signedness data and wrap-around casts, and fallible conversions as
  Except values.  External engine operations that this core consumes
  (reading an engine value as a 32-bit integer, truthiness testing, the
  array cast error display) are modelled from the specification of the
  consumed interfaces, as noted on each such definition.
-/

namespace DenoConvert

/-- The model of an engine-managed value (v8::Value).  A number carries a
rational payload standing for the finite double it holds; an immediate
integer carries its mathematical value (always in the i32 range when
produced by this core). -/
inductive V8Value where
  | integer (n : Int)
  | number (x : Rat)
  | boolean (b : Bool)
  | stringVal (s : String)
  | array (elems : List V8Value)
  | nullVal
  | undefinedVal
  | object

/-- Display name of the runtime kind of an engine value, used by the engine
cast error display. -/
def V8Value.kindName : V8Value → String
  | .integer _ => "v8::Integer"
  | .number _ => "v8::Number"
  | .boolean _ => "v8::Boolean"
  | .stringVal _ => "v8::String"
  | .array _ => "v8::Array"
  | .nullVal => "v8::Null"
  | .undefinedVal => "v8::Undefined"
  | .object => "v8::Object"

/-- Modelled from the spec: the engine operation testing an engine value
for truthiness (section 6 item f, used by value.is_true in the source).
Zero numbers, the empty string, null, undefined and false are falsy;
everything else is truthy. -/
def V8Value.is_true : V8Value → Bool
  | .integer n => n ≠ 0
  | .number x => x ≠ 0
  | .boolean b => b
  | .stringVal s => s ≠ ""
  | .array _ => true
  | .nullVal => false
  | .undefinedVal => false
  | .object => true

/-- The conversion scope (v8::HandleScope).  All engine operations the core
consumes are modelled as pure, so the scope carries no state. -/
abbrev Scope := Unit

/-- The type-erased error (crate::error::AnyError / StdAnyError): an erased
wrapper capturing the display text of the underlying error. -/
structure AnyError where
  msg : String
deriving Repr, DecidableEq

/-- Models crate::error::type_error: a type error carrying the given
message. -/
def type_error (m : String) : AnyError := ⟨m⟩

/-! ## Machine integers and casts

The Rust source instantiates the small-integer adapter for
u8, u16, u32, u64, usize, i8, i16, i32, i64, isize via the cast
operator (`self as i32`, `value as Self`), whose semantics is: truncate
to the low bits of the target width and reinterpret according to the
target signedness.  usize and isize are modelled at 64 bits. -/

/-- Truncation of an integer to an unsigned value of width w bits
(the Rust cast `as uN`). -/
def toUnsignedW (w : Nat) (n : Int) : Int := n % (2 ^ w : Int)

/-- Truncation of an integer to a signed value of width w bits
(the Rust cast `as iN`): take the low w bits and reinterpret in
two-complement. -/
def toSignedW (w : Nat) (n : Int) : Int :=
  if n % (2 ^ w : Int) < 2 ^ (w - 1) then n % (2 ^ w : Int)
  else n % (2 ^ w : Int) - 2 ^ w

/-- A fixed-width native integer type: its static display name, width in
bits, and signedness. -/
structure SmallIntTy where
  name : String
  width : Nat
  signed : Bool
deriving Repr, DecidableEq

/-- The Rust cast `v as T` for a target integer type T. -/
def SmallIntTy.cast (t : SmallIntTy) (n : Int) : Int :=
  if t.signed then toSignedW t.width n else toUnsignedW t.width n

/-- The set of values representable in the type. -/
def SmallIntTy.inRange (t : SmallIntTy) (n : Int) : Prop :=
  if t.signed then -(2 ^ (t.width - 1)) ≤ n ∧ n < 2 ^ (t.width - 1)
  else 0 ≤ n ∧ n < 2 ^ t.width

instance (t : SmallIntTy) (n : Int) : Decidable (t.inRange n) := by
  unfold SmallIntTy.inRange
  infer_instance

/-- SmallInt::as_i32 from the source: `self as i32`. -/
def SmallIntTy.as_i32 (_t : SmallIntTy) (n : Int) : Int := toSignedW 32 n

/-- SmallInt::from_i32 from the source: `value as Self`. -/
def SmallIntTy.from_i32 (t : SmallIntTy) (n : Int) : Int := t.cast n

def u8ty : SmallIntTy := ⟨"u8", 8, false⟩
def u16ty : SmallIntTy := ⟨"u16", 16, false⟩
def u32ty : SmallIntTy := ⟨"u32", 32, false⟩
def u64ty : SmallIntTy := ⟨"u64", 64, false⟩
def usizety : SmallIntTy := ⟨"usize", 64, false⟩
def i8ty : SmallIntTy := ⟨"i8", 8, true⟩
def i16ty : SmallIntTy := ⟨"i16", 16, true⟩
def i32ty : SmallIntTy := ⟨"i32", 32, true⟩
def i64ty : SmallIntTy := ⟨"i64", 64, true⟩
def isizety : SmallIntTy := ⟨"isize", 64, true⟩

/-- The ten instantiations of impl_smallint in the source. -/
def smallIntTys : List SmallIntTy :=
  [u8ty, u16ty, u32ty, u64ty, usizety, i8ty, i16ty, i32ty, i64ty, isizety]

/-- Modelled from the spec: crate::runtime::ops::to_i32_option, the engine
operation reading an engine value as a native 32-bit signed integer,
returning no value when the engine value is not of that numeric kind
(section 6 item e). -/
def to_i32_option : V8Value → Option Int
  | .integer n => some n
  | .number x =>
    if x.den = 1 ∧ -(2 ^ 31) ≤ x.num ∧ x.num < 2 ^ 31 then some x.num else none
  | _ => none

namespace Smi

/-- ToV8 for Smi (source lines 161-171): always succeeds, allocating an
engine immediate integer from `self.0.as_i32()`. -/
def to_v8 (t : SmallIntTy) (_scope : Scope) (v : Int) : Except Empty V8Value :=
  .ok (.integer (t.as_i32 v))

/-- FromV8 for Smi (source lines 173-186): read the value as an i32 via
to_i32_option, fail with "Expected NAME" when that yields no value,
otherwise return `T::from_i32(v)`. -/
def from_v8 (t : SmallIntTy) (_scope : Scope) (value : V8Value) :
    Except AnyError Int :=
  match to_i32_option value with
  | some v => .ok (t.from_i32 v)
  | none => .error (type_error ("Expected " ++ t.name))

end Smi

/-! ## The general-numeric adapter -/

/-- The Numeric trait of the source: a static display name, a conversion
to the engine double payload, and a read of an engine value as this type
(the per-type ops reader, returning no value when the engine value is not
of that numeric kind). -/
structure Numeric (T : Type) where
  name : String
  as_f64 : T → Rat
  from_value : V8Value → Option T

namespace Number

/-- ToV8 for Number (source lines 232-241): always succeeds, allocating an
engine number from `self.0.as_f64()`. -/
def to_v8 {T : Type} (nm : Numeric T) (_scope : Scope) (v : T) :
    Except Empty V8Value :=
  .ok (.number (nm.as_f64 v))

/-- FromV8 for Number (source lines 243-254): `T::from_value(&value)`
mapped into the wrapper, failing with "Expected NAME" when the read yields
no value. -/
def from_v8 {T : Type} (nm : Numeric T) (_scope : Scope) (value : V8Value) :
    Except AnyError T :=
  match nm.from_value value with
  | some x => .ok x
  | none => .error (type_error ("Expected " ++ nm.name))

end Number

/-- Modelled from the spec: crate::runtime::ops::to_f64_option, the engine
operation reading an engine value as a native 64-bit float (section 6
item e). -/
def to_f64_option : V8Value → Option Rat
  | .number x => some x
  | .integer n => some (n : Rat)
  | _ => none

/-- The f64 instantiation of impl_numeric in the source. -/
def f64Numeric : Numeric Rat := ⟨"f64", id, to_f64_option⟩

/-! ## The boolean adapter -/

namespace BoolConv

/-- ToV8 for bool (source lines 256-265): always succeeds, allocating an
engine boolean. -/
def to_v8 (_scope : Scope) (b : Bool) : Except Empty V8Value :=
  .ok (.boolean b)

/-- FromV8 for bool (source lines 267-276): always succeeds, returning
`value.is_true()`. -/
def from_v8 (_scope : Scope) (value : V8Value) : Except Empty Bool :=
  .ok value.is_true

end BoolConv

/-! ## The sequence adapter, outbound

The source converts each element in order, collecting into a Result (so
the iteration stops at the first element error and propagates it), and
only then allocates the engine array from the collected elements. -/

namespace VecConv

/-- The element-by-element collection performed by
`self.into_iter().map(|v| v.to_v8(scope)).collect::<Result<Vec<_>, _>>()`:
elements are converted in original order and the first failure aborts the
iteration, propagating exactly that error. -/
def collectToV8 {T E : Type} (et : Scope → T → Except E V8Value)
    (scope : Scope) : List T → Except E (List V8Value)
  | [] => .ok []
  | x :: xs =>
    match et scope x with
    | .error e => .error e
    | .ok v =>
      match collectToV8 et scope xs with
      | .error e => .error e
      | .ok vs => .ok (v :: vs)

/-- ToV8 for Vec (source lines 278-294): collect the converted elements,
propagating the first element error, then allocate one engine array
holding them (`v8::Array::new_with_elements`). -/
def to_v8 {T E : Type} (et : Scope → T → Except E V8Value)
    (scope : Scope) (xs : List T) : Except E V8Value :=
  match collectToV8 et scope xs with
  | .error e => .error e
  | .ok buf => .ok (.array buf)

end VecConv

/-! ## The sequence adapter, inbound

The source allocates a buffer of `len` logically uninitialized slots
(`maybe_uninit_vec`), walks the engine array by index, writes each
converted element into its slot, and on the first element failure runs
`assume_init_drop` on slots `0..i` before returning the wrapped error.
On full success the buffer is reinterpreted in place
(`transmute_vec::<MaybeUninit<T>, T>`).

The embedding makes the buffer explicit.  A slot is uninitialized,
filled, or dropped; running a destructor on a slot that is not filled is
undefined behaviour in the source and is surfaced here as a distinguished
outcome, as is reinterpreting a buffer that is not entirely filled, and
the panic of the unconditional `unwrap` on the indexed read.  The loop is
additionally instrumented with the list of slot indices whose destructor
ran, in order. -/

/-- One slot of the MaybeUninit element buffer. -/
inductive Slot (T : Type) where
  | uninit
  | filled (v : T)
  | dropped
deriving Repr, DecidableEq

/-- Whether a slot currently holds a live (initialized, not yet dropped)
element. -/
def Slot.isFilled {T : Type} : Slot T → Bool
  | .filled _ => true
  | _ => false

/-- Run `assume_init_drop` on the given slot indices in order: each slot
must currently be filled (otherwise the drop is undefined behaviour and
the result is none); a dropped slot is marked dropped and its index is
recorded. -/
def dropSlots {T : Type} :
    List (Slot T) → List Nat → Option (List (Slot T) × List Nat)
  | buf, [] => some (buf, [])
  | buf, j :: js =>
    match buf[j]? with
    | some (Slot.filled _) =>
      match dropSlots (buf.set j .dropped) js with
      | some (b2, ds) => some (b2, j :: ds)
      | none => none
    | _ => none

/-- The in-place reinterpretation of the fully filled buffer as a buffer
of elements (the transmute_vec call site): defined only when every slot
is filled. -/
def allFilled {T : Type} : List (Slot T) → Option (List T)
  | [] => some []
  | .filled x :: rest => (allFilled rest).map (x :: ·)
  | _ :: _ => none

/-- Outcome of the inbound sequence conversion. -/
inductive VecResult (T : Type) where
  | ok (xs : List T)
  | err (e : AnyError)
  | panicked
  | ub
deriving Repr, DecidableEq

/-- The full instrumented outcome: the result, the final state of the
element buffer at return, and the indices whose destructor ran, in
order. -/
structure VecFromOut (T : Type) where
  result : VecResult T
  buf : List (Slot T)
  drops : List Nat
deriving Repr, DecidableEq

namespace VecConv

/-- The `for i in 0..len` loop of FromV8 for Vec (source lines 313-330)
followed by the transmute (lines 332-336).  `read` is the engine indexed
read `arr.get_index(scope, i)`; its result is unwrapped unconditionally,
so a read yielding no value panics.  `rem` is the number of remaining
iterations (`len - i`), and recursion is structural on it. -/
def fromV8Loop {T E : Type} (ef : Scope → V8Value → Except E T)
    (disp : E → String) (scope : Scope) (read : Nat → Option V8Value) :
    Nat → Nat → List (Slot T) → VecFromOut T
  | 0, _i, buf =>
    match allFilled buf with
    | some xs => ⟨.ok xs, buf, []⟩
    | none => ⟨.ub, buf, []⟩
  | rem + 1, i, buf =>
    match read i with
    | none => ⟨.panicked, buf, []⟩
    | some v =>
      match ef scope v with
      | .ok x => fromV8Loop ef disp scope read rem (i + 1) (buf.set i (.filled x))
      | .error e =>
        match dropSlots buf (List.range i) with
        | some (b2, ds) => ⟨.err (AnyError.mk (disp e)), b2, ds⟩
        | none => ⟨.ub, buf, []⟩

/-- Modelled from the spec: the display text of the engine cast error
raised by `v8::Local::<v8::Array>::try_from` on a non-array value
(external to this core). -/
def castErrorMsg (v : V8Value) : String :=
  "expected v8::Array, got " ++ v.kindName

/-- FromV8 for Vec (source lines 296-338): cast the value to an engine
array (failing with "Failed to convert from V8: " and the cast error
display otherwise), read its length, allocate `len` uninitialized slots
(`maybe_uninit_vec`), and run the conversion loop.  `disp` is the display
of the element error type, captured by `AnyError::from(e)` when an
element fails. -/
def from_v8 {T E : Type} (ef : Scope → V8Value → Except E T)
    (disp : E → String) (scope : Scope) (value : V8Value) : VecFromOut T :=
  match value with
  | .array elems =>
    fromV8Loop ef disp scope (fun i => elems[i]?) elems.length 0
      (List.replicate elems.length .uninit)
  | v =>
    ⟨.err (type_error ("Failed to convert from V8: " ++ castErrorMsg v)),
      [], []⟩

end VecConv

/-! ## The low-level reinterpretation helper -/

/-- A type layout: size and alignment. -/
structure Layout where
  size : Nat
  align : Nat
deriving Repr, DecidableEq

/-- Outcome of transmute_vec: either the reinterpreted elements, or a
debug-assertion failure. -/
inductive TransmuteResult (U : Type) where
  | ok (xs : List U)
  | assertionFailed
deriving Repr, DecidableEq

/-- transmute_vec (source lines 350-364): two `debug_assert!` statements
check that the source and target layouts agree in size and in alignment,
then the storage is reinterpreted element-wise without copying.
`debug_assert!` evaluates its condition only in builds with debug
assertions enabled, modelled by the `debugAssertions` flag; in builds
without them the checks are compiled out and the reinterpretation
proceeds unconditionally. -/
def transmute_vec {T U : Type} (debugAssertions : Bool) (lt lu : Layout)
    (reinterp : T → U) (v : List T) : TransmuteResult U :=
  if debugAssertions ∧ ¬lt.size = lu.size then .assertionFailed
  else if debugAssertions ∧ ¬lt.align = lu.align then .assertionFailed
  else .ok (v.map reinterp)

/-! ## Helper lemmas: wrap-around arithmetic -/

theorem toSignedW_eq (w : Nat) (n : Int) (hw : 0 < w) :
    toSignedW w n = (n + 2 ^ (w - 1)) % 2 ^ w - 2 ^ (w - 1) := by
  have h2 : (2 : Int) ^ w = 2 ^ (w - 1) * 2 := by
    rw [← pow_succ]
    congr 1
    omega
  have hwpos : (0 : Int) < 2 ^ w := by positivity
  have hkpos : (0 : Int) < 2 ^ (w - 1) := by positivity
  have hm0 : 0 ≤ n % 2 ^ w := Int.emod_nonneg n (by omega)
  have hm1 : n % 2 ^ w < 2 ^ w := Int.emod_lt_of_pos n hwpos
  have hKM : (2 : Int) ^ (w - 1) % 2 ^ w = 2 ^ (w - 1) :=
    Int.emod_eq_of_lt (by positivity) (by omega)
  have hadd : (n + 2 ^ (w - 1)) % 2 ^ w = (n % 2 ^ w + 2 ^ (w - 1)) % 2 ^ w := by
    rw [Int.add_emod, hKM]
  by_cases h : n % 2 ^ w < 2 ^ (w - 1)
  · have e : (n % 2 ^ w + 2 ^ (w - 1)) % 2 ^ w = n % 2 ^ w + 2 ^ (w - 1) :=
      Int.emod_eq_of_lt (by omega) (by omega)
    simp only [toSignedW, if_pos h]
    omega
  · have e0 : (n % 2 ^ w + 2 ^ (w - 1) - 2 ^ w) % 2 ^ w
        = (n % 2 ^ w + 2 ^ (w - 1)) % 2 ^ w :=
      Int.emod_sub_cancel _ _
    have e : (n % 2 ^ w + 2 ^ (w - 1) - 2 ^ w) % 2 ^ w
        = n % 2 ^ w + 2 ^ (w - 1) - 2 ^ w :=
      Int.emod_eq_of_lt (by omega) (by omega)
    simp only [toSignedW, if_neg h]
    omega

theorem toSignedW_of_inRange (w : Nat) (n : Int) (hw : 0 < w)
    (h0 : -(2 ^ (w - 1)) ≤ n) (h1 : n < 2 ^ (w - 1)) : toSignedW w n = n := by
  have h2 : (2 : Int) ^ w = 2 ^ (w - 1) * 2 := by
    rw [← pow_succ]
    congr 1
    omega
  have hkpos : (0 : Int) < 2 ^ (w - 1) := by positivity
  by_cases hn : 0 ≤ n
  · have e : n % 2 ^ w = n := Int.emod_eq_of_lt hn (by omega)
    simp only [toSignedW, e, if_pos h1]
  · have e1 := Int.add_mul_emod_self_left n (2 ^ w) 1
    rw [mul_one] at e1
    have e2 : (n + 2 ^ w) % 2 ^ w = n + 2 ^ w :=
      Int.emod_eq_of_lt (by omega) (by omega)
    have e : n % 2 ^ w = n + 2 ^ w := by omega
    simp only [toSignedW, e, if_neg (by omega : ¬n + 2 ^ w < 2 ^ (w - 1))]
    omega

/-! ## Helper lemmas: the element buffer -/

theorem dropSlots_spec {T : Type} (js : List Nat) :
    ∀ buf : List (Slot T), js.Nodup →
    (∀ j ∈ js, ∃ x, buf[j]? = some (Slot.filled x)) →
    ∃ b2, dropSlots buf js = some (b2, js) ∧ b2.length = buf.length ∧
      ∀ k, b2[k]? = if k ∈ js then some Slot.dropped else buf[k]? := by
  induction js with
  | nil =>
    intro buf _ _
    exact ⟨buf, rfl, rfl, fun k => by simp⟩
  | cons j js ih =>
    intro buf hnd hfill
    obtain ⟨x, hx⟩ := hfill j (by simp)
    have hjlen : j < buf.length := by
      rcases List.getElem?_eq_some.mp hx with ⟨h, _⟩
      exact h
    have hjnot : j ∉ js := (List.nodup_cons.mp hnd).1
    have hfill' : ∀ j' ∈ js, ∃ x,
        (buf.set j Slot.dropped)[j']? = some (Slot.filled x) := by
      intro j' hj'
      rw [List.getElem?_set_ne (fun h => hjnot (by rw [h]; exact hj'))]
      exact hfill j' (by simp [hj'])
    obtain ⟨b2, hds, hlen, hchar⟩ :=
      ih (buf.set j Slot.dropped) (List.nodup_cons.mp hnd).2 hfill'
    refine ⟨b2, ?_, by rw [hlen, List.length_set], ?_⟩
    · show dropSlots buf (j :: js) = some (b2, j :: js)
      simp only [dropSlots, hx, hds]
    · intro k
      rw [hchar k]
      by_cases hk : k ∈ js
      · simp [hk]
      · by_cases hkj : k = j
        · subst hkj
          simp [hjnot, List.getElem?_set_self hjlen]
        · simp [hk, hkj, List.getElem?_set_ne (fun h => hkj h.symm)]

theorem allFilled_eq {T : Type} :
    ∀ (buf : List (Slot T)) (ys : List T), buf.length = ys.length →
    (∀ j, j < buf.length → buf[j]? = (ys[j]?).map Slot.filled) →
    allFilled buf = some ys := by
  intro buf
  induction buf with
  | nil =>
    intro ys hlen _
    cases ys with
    | nil => rfl
    | cons y ys => simp at hlen
  | cons s rest ih =>
    intro ys hlen hchar
    cases ys with
    | nil => simp at hlen
    | cons y ys' =>
      have h0 := hchar 0 (by simp)
      simp only [List.getElem?_cons_zero, Option.map_some] at h0
      have hs : s = Slot.filled y := by injection h0
      subst hs
      have hrest : allFilled rest = some ys' := by
        refine ih ys' (by simpa using hlen) (fun j hj => ?_)
        have := hchar (j + 1) (by simp; omega)
        simpa using this
      simp [allFilled, hrest]

/-! ## Helper lemmas: the inbound conversion loop -/

theorem fromV8Loop_ok {T E : Type} (ef : Scope → V8Value → Except E T)
    (disp : E → String) (scope : Scope) (read : Nat → Option V8Value) :
    ∀ (rem i : Nat) (buf : List (Slot T)) (ys zs : List T),
    buf.length = i + rem → ys.length = i →
    (∀ j, j < i → buf[j]? = (ys[j]?).map Slot.filled) →
    (∀ j, i ≤ j → j < i + rem → buf[j]? = some Slot.uninit) →
    zs.length = rem →
    (∀ k, k < rem → ∃ v z, read (i + k) = some v ∧ ef scope v = Except.ok z ∧
      zs[k]? = some z) →
    ∃ b, VecConv.fromV8Loop ef disp scope read rem i buf
      = ⟨VecResult.ok (ys ++ zs), b, []⟩ := by
  intro rem
  induction rem with
  | zero =>
    intro i buf ys zs hblen hylen hpre _ hzlen _
    have hz : zs = [] := List.eq_nil_of_length_eq_zero hzlen
    subst hz
    have hall : allFilled buf = some ys :=
      allFilled_eq buf ys (by omega) (fun j hj => hpre j (by omega))
    exact ⟨buf, by simp [VecConv.fromV8Loop, hall]⟩
  | succ rem ih =>
    intro i buf ys zs hblen hylen hpre hsuf hzlen hconv
    obtain ⟨v, z, hread, hok, hz0⟩ := hconv 0 (by omega)
    rw [Nat.add_zero] at hread
    cases zs with
    | nil => simp at hzlen
    | cons z0 zs' =>
      have hz0' : z0 = z := by simpa using hz0
      subst hz0'
      have hilt : i < buf.length := by omega
      obtain ⟨b, hb⟩ := ih (i + 1) (buf.set i (Slot.filled z0)) (ys ++ [z0]) zs'
        (by rw [List.length_set]; omega)
        (by simp [hylen])
        (by
          intro j hj
          by_cases hji : j = i
          · subst hji
            rw [List.getElem?_set_self hilt,
              List.getElem?_append_right (by omega),
              hylen]
            simp
          · rw [List.getElem?_set_ne (fun h => hji h.symm), hpre j (by omega),
              List.getElem?_append, if_pos (by omega)])
        (by
          intro j hj1 hj2
          rw [List.getElem?_set_ne (by omega)]
          exact hsuf j (by omega) (by omega))
        (by simpa using hzlen)
        (by
          intro k hk
          obtain ⟨v', z', h1, h2, h3⟩ := hconv (k + 1) (by omega)
          refine ⟨v', z', ?_, h2, by simpa using h3⟩
          have heq : i + (k + 1) = i + 1 + k := by omega
          rw [← heq]
          exact h1)
      refine ⟨b, ?_⟩
      simp only [VecConv.fromV8Loop, hread, hok]
      rw [hb, List.append_cons ys z0 zs']

theorem fromV8Loop_err {T E : Type} (ef : Scope → V8Value → Except E T)
    (disp : E → String) (scope : Scope) (read : Nat → Option V8Value) :
    ∀ (rem i : Nat) (buf : List (Slot T)) (ys : List T),
    buf.length = i + rem → ys.length = i →
    (∀ j, j < i → buf[j]? = (ys[j]?).map Slot.filled) →
    (∀ j, i ≤ j → j < i + rem → buf[j]? = some Slot.uninit) →
    ∀ f v e, i ≤ f → f < i + rem →
    (∀ j, i ≤ j → j < f → ∃ w y, read j = some w ∧ ef scope w = Except.ok y) →
    read f = some v → ef scope v = Except.error e →
    ∃ b2, VecConv.fromV8Loop ef disp scope read rem i buf
        = ⟨VecResult.err (AnyError.mk (disp e)), b2, List.range f⟩ ∧
      b2.length = i + rem ∧
      (∀ j, j < f → b2[j]? = some Slot.dropped) ∧
      (∀ j, f ≤ j → j < i + rem → b2[j]? = some Slot.uninit) := by
  intro rem
  induction rem with
  | zero =>
    intro i buf ys _ _ _ _ f v e hif hfrem _ _ _
    omega
  | succ rem ih =>
    intro i buf ys hblen hylen hpre hsuf f v e hif hfrem hpref hread herr
    by_cases hfi : f = i
    · subst hfi
      have hfill : ∀ j ∈ List.range f, ∃ x, buf[j]? = some (Slot.filled x) := by
        intro j hj
        rw [List.mem_range] at hj
        have hget := hpre j hj
        have hylt : j < ys.length := by omega
        refine ⟨ys.get ⟨j, hylt⟩, ?_⟩
        rw [hget, List.getElem?_eq_getElem hylt]
        rfl
      obtain ⟨b2, hds, hlen2, hchar⟩ :=
        dropSlots_spec (List.range f) buf (List.nodup_range f) hfill
      refine ⟨b2, ?_, by omega, ?_, ?_⟩
      · simp only [VecConv.fromV8Loop, hread, herr, hds]
      · intro j hj
        rw [hchar j, if_pos (List.mem_range.mpr hj)]
      · intro j hj1 hj2
        rw [hchar j, if_neg (fun h => by rw [List.mem_range] at h; omega)]
        exact hsuf j hj1 hj2
    · obtain ⟨w, y, hw, hy⟩ := hpref i (le_refl i) (by omega)
      have hilt : i < buf.length := by omega
      obtain ⟨b2, hloop, hlen2, hdropped, huninit⟩ :=
        ih (i + 1) (buf.set i (Slot.filled y)) (ys ++ [y])
          (by rw [List.length_set]; omega)
          (by simp [hylen])
          (by
            intro j hj
            by_cases hji : j = i
            · subst hji
              rw [List.getElem?_set_self hilt,
                List.getElem?_append_right (by omega), hylen]
              simp
            · rw [List.getElem?_set_ne (fun h => hji h.symm), hpre j (by omega),
                List.getElem?_append, if_pos (by omega)])
          (by
            intro j hj1 hj2
            rw [List.getElem?_set_ne (by omega)]
            exact hsuf j (by omega) (by omega))
          f v e (by omega) (by omega)
          (fun j hj1 hj2 => hpref j (by omega) hj2)
          hread herr
      refine ⟨b2, ?_, by omega, hdropped,
        fun j hj1 hj2 => huninit j hj1 (by omega)⟩
      simp only [VecConv.fromV8Loop, hw, hy]
      exact hloop

theorem fromV8Loop_panic {T E : Type} (ef : Scope → V8Value → Except E T)
    (disp : E → String) (scope : Scope) (read : Nat → Option V8Value) :
    ∀ (rem i : Nat) (buf : List (Slot T)) (f : Nat), i ≤ f → f < i + rem →
    (∀ j, i ≤ j → j < f → ∃ w y, read j = some w ∧ ef scope w = Except.ok y) →
    read f = none →
    ∃ b, VecConv.fromV8Loop ef disp scope read rem i buf
      = ⟨VecResult.panicked, b, []⟩ := by
  intro rem
  induction rem with
  | zero =>
    intro i buf f hif hfrem _ _
    omega
  | succ rem ih =>
    intro i buf f hif hfrem hpref hread
    by_cases hfi : f = i
    · subst hfi
      exact ⟨buf, by simp only [VecConv.fromV8Loop, hread]⟩
    · obtain ⟨w, y, hw, hy⟩ := hpref i (le_refl i) (by omega)
      obtain ⟨b, hb⟩ := ih (i + 1) (buf.set i (Slot.filled y)) f (by omega)
        (by omega) (fun j hj1 hj2 => hpref j (by omega) hj2) hread
      exact ⟨b, by simp only [VecConv.fromV8Loop, hw, hy]; exact hb⟩

theorem fromV8Loop_no_panic {T E : Type} (ef : Scope → V8Value → Except E T)
    (disp : E → String) (scope : Scope) (read : Nat → Option V8Value) :
    ∀ (rem i : Nat) (buf : List (Slot T)),
    (∀ j, i ≤ j → j < i + rem → (read j).isSome) →
    (VecConv.fromV8Loop ef disp scope read rem i buf).result
      ≠ VecResult.panicked := by
  intro rem
  induction rem with
  | zero =>
    intro i buf _
    simp only [VecConv.fromV8Loop]
    cases allFilled buf <;> simp
  | succ rem ih =>
    intro i buf hreads
    have hsome : (read i).isSome := hreads i (le_refl i) (by omega)
    obtain ⟨v, hv⟩ := Option.isSome_iff_exists.mp hsome
    simp only [VecConv.fromV8Loop, hv]
    cases hef : ef scope v with
    | ok x =>
      exact ih (i + 1) (buf.set i (Slot.filled x))
        (fun j hj1 hj2 => hreads j (by omega) (by omega))
    | error e =>
      cases hds : dropSlots buf (List.range i) with
      | none => simp
      | some p =>
        cases p with
        | mk b2 ds => simp

/-- In the inbound sequence conversion itself, every indexed read is over
the engine array at an index below its reported length, so the read always
yields a value. -/
theorem from_v8_reads_some (elems : List V8Value) (i : Nat)
    (h : i < elems.length) : (elems[i]?).isSome := by
  rw [List.getElem?_eq_getElem h]
  rfl

theorem from_v8_no_panic {T E : Type} (ef : Scope → V8Value → Except E T)
    (disp : E → String) (scope : Scope) (value : V8Value) :
    (VecConv.from_v8 ef disp scope value).result ≠ VecResult.panicked := by
  cases value with
  | array elems =>
    exact fromV8Loop_no_panic ef disp scope (fun i => elems[i]?)
      elems.length 0 (List.replicate elems.length Slot.uninit)
      (fun j _ hj => from_v8_reads_some elems j (by omega))
  | integer n => simp [VecConv.from_v8]
  | number x => simp [VecConv.from_v8]
  | boolean b => simp [VecConv.from_v8]
  | stringVal s => simp [VecConv.from_v8]
  | nullVal => simp [VecConv.from_v8]
  | undefinedVal => simp [VecConv.from_v8]
  | object => simp [VecConv.from_v8]

/-! ## Helper lemmas: the outbound collection -/

theorem collectToV8_ok {T E : Type} (et : Scope → T → Except E V8Value)
    (scope : Scope) :
    ∀ (xs : List T) (ws : List V8Value), ws.length = xs.length →
    (∀ k, k < xs.length → ∃ x w, xs[k]? = some x ∧ et scope x = Except.ok w ∧
      ws[k]? = some w) →
    VecConv.collectToV8 et scope xs = Except.ok ws := by
  intro xs
  induction xs with
  | nil =>
    intro ws hlen _
    cases ws with
    | nil => rfl
    | cons w ws => simp at hlen
  | cons x xs ih =>
    intro ws hlen hconv
    obtain ⟨x0, w0, hx0, hw0, hws0⟩ := hconv 0 (by simp)
    cases ws with
    | nil => simp at hlen
    | cons w ws' =>
      have hx : x = x0 := by simpa using hx0
      subst hx
      have hw : w = w0 := by simpa using hws0
      subst hw
      have hrest := ih ws' (by simpa using hlen) (fun k hk => by
        obtain ⟨a, b, h1, h2, h3⟩ := hconv (k + 1) (by simp; omega)
        exact ⟨a, b, by simpa using h1, h2, by simpa using h3⟩)
      simp only [VecConv.collectToV8, hw0, hrest]

theorem collectToV8_err {T E : Type} (et : Scope → T → Except E V8Value)
    (scope : Scope) :
    ∀ (xs : List T) (f : Nat) (xf : T) (e : E),
    (∀ j, j < f → ∃ x w, xs[j]? = some x ∧ et scope x = Except.ok w) →
    xs[f]? = some xf → et scope xf = Except.error e →
    VecConv.collectToV8 et scope xs = Except.error e := by
  intro xs
  induction xs with
  | nil =>
    intro f xf e _ hxf _
    simp at hxf
  | cons x xs ih =>
    intro f xf e hpre hxf herr
    cases f with
    | zero =>
      have hx : x = xf := by simpa using hxf
      subst hx
      simp only [VecConv.collectToV8, herr]
    | succ f' =>
      obtain ⟨x0, w0, hx0, hw0⟩ := hpre 0 (by omega)
      have hx : x = x0 := by simpa using hx0
      subst hx
      have hrest := ih f' xf e (fun j hj => by
        obtain ⟨a, b, h1, h2⟩ := hpre (j + 1) (by omega)
        exact ⟨a, b, by simpa using h1, h2⟩) (by simpa using hxf) herr
      simp only [VecConv.collectToV8, hw0, hrest]

theorem collectToV8_smi_i32 (scope : Scope) (xs : List Int) :
    VecConv.collectToV8 (Smi.to_v8 i32ty) scope xs
      = Except.ok (xs.map (fun v => V8Value.integer (toSignedW 32 v))) := by
  induction xs with
  | nil => rfl
  | cons x xs ih =>
    simp only [VecConv.collectToV8, Smi.to_v8, ih, List.map_cons]
    rfl

/-! ## The claims -/

/-- C2: Boolean inbound conversion (FromV8 for bool) never fails for any
engine value — its error type is the empty type and it always returns the
engine truthiness coercion of the value; in particular numeric zero reads
as false and the number 1 reads as true, also for non-boolean engine
values.  (The truthiness operation consumed here is external to this core
and is modelled from the spec.) -/
theorem bool_from_v8_total_truthiness :
    (∀ (scope : Scope) (value : V8Value),
      BoolConv.from_v8 scope value = Except.ok value.is_true) ∧
    BoolConv.from_v8 () (V8Value.number 0) = Except.ok false ∧
    BoolConv.from_v8 () (V8Value.number 1) = Except.ok true ∧
    BoolConv.from_v8 () (V8Value.integer 0) = Except.ok false ∧
    BoolConv.from_v8 () (V8Value.integer 1) = Except.ok true ∧
    BoolConv.from_v8 () V8Value.undefinedVal = Except.ok false ∧
    BoolConv.from_v8 () (V8Value.stringVal "x") = Except.ok true := by
  refine ⟨fun scope value => rfl, ?_, ?_, ?_, ?_, ?_, ?_⟩ <;> rfl

/-- C8: outbound conversion of every small-integer wrapper, every
general-numeric wrapper, and bool, and inbound conversion of bool, have
the empty (no-failure-possible) error type in this embedding and return a
success result for every input value and scope. -/
theorem outbound_primitive_infallible :
    (∀ (t : SmallIntTy) (scope : Scope) (v : Int),
      (Smi.to_v8 t scope v).isOk = true) ∧
    (∀ (T : Type) (nm : Numeric T) (scope : Scope) (v : T),
      (Number.to_v8 nm scope v).isOk = true) ∧
    (∀ (scope : Scope) (b : Bool), (BoolConv.to_v8 scope b).isOk = true) ∧
    (∀ (scope : Scope) (value : V8Value),
      (BoolConv.from_v8 scope value).isOk = true) :=
  ⟨fun _ _ _ => rfl, fun _ _ _ _ => rfl, fun _ _ => rfl, fun _ _ => rfl⟩

/-- C9 counterexample: the layout agreement at the reinterpretation point
is checked by debug_assert!, which is compiled out in builds without debug
assertions: in such a build a size/alignment mismatch passes unasserted,
so the check does not run in every build of the program. -/
theorem transmute_vec_release_unchecked :
    Layout.mk 4 4 ≠ Layout.mk 8 8 ∧
    transmute_vec false (Layout.mk 4 4) (Layout.mk 8 8) (fun n : Int => n) []
      = TransmuteResult.ok [] := by
  exact ⟨by decide, rfl⟩

/-- C9 amended: in every build with debug assertions enabled, the
reinterpretation point asserts that the uninitialized and initialized
representations have identical size and alignment: any mismatch fails the
assertion, and when the layouts agree the reinterpretation proceeds in
every build. -/
theorem transmute_vec_debug_assert {T U : Type} (lt lu : Layout)
    (f : T → U) (v : List T) :
    (¬(lt.size = lu.size ∧ lt.align = lu.align) →
      transmute_vec true lt lu f v = TransmuteResult.assertionFailed) ∧
    (∀ dbg : Bool, lt.size = lu.size → lt.align = lu.align →
      transmute_vec dbg lt lu f v = TransmuteResult.ok (v.map f)) := by
  constructor
  · intro h
    by_cases h1 : lt.size = lu.size
    · have h2 : ¬lt.align = lu.align := fun h2 => h ⟨h1, h2⟩
      simp [transmute_vec, h1, h2]
    · simp [transmute_vec, h1]
  · intro dbg h1 h2
    simp [transmute_vec, h1, h2]

/-- Witness for the C9 amended theorem at concrete layouts. -/
theorem transmute_vec_debug_assert_witness :
    transmute_vec true (Layout.mk 4 4) (Layout.mk 8 8) (fun n : Int => n) [1, 2]
      = TransmuteResult.assertionFailed ∧
    transmute_vec false (Layout.mk 4 4) (Layout.mk 4 4) (fun n : Int => n) [1, 2]
      = TransmuteResult.ok [1, 2] :=
  ⟨(transmute_vec_debug_assert (Layout.mk 4 4) (Layout.mk 8 8)
      (fun n : Int => n) [1, 2]).1 (by decide),
   (transmute_vec_debug_assert (Layout.mk 4 4) (Layout.mk 4 4)
      (fun n : Int => n) [1, 2]).2 false rfl rfl⟩

/-- The value the spec predicts for the small-integer round-trip: the
input converted to a 32-bit signed intermediate, then truncated and
reinterpreted at the width and signedness of the target type. -/
def specTruncate (t : SmallIntTy) (v : Int) : Int :=
  let inter := (v + 2 ^ 31) % 2 ^ 32 - 2 ^ 31
  if t.signed then
    (inter + 2 ^ (t.width - 1)) % 2 ^ t.width - 2 ^ (t.width - 1)
  else inter % 2 ^ t.width

theorem smallIntTys_width_pos : ∀ t ∈ smallIntTys, 0 < t.width := by decide

/-- C3: for the instantiated fixed-width integer types, outbound
conversion through the small-integer adapter followed by inbound
conversion as any instantiated type yields exactly the value predicted by
the 32-bit-signed-intermediate truncation of the spec. -/
theorem smi_roundtrip_truncation (tOut tIn : SmallIntTy)
    (hOut : tOut ∈ smallIntTys) (hIn : tIn ∈ smallIntTys) (v : Int)
    (hv : tOut.inRange v) (scope : Scope) (arr : V8Value)
    (h : Smi.to_v8 tOut scope v = Except.ok arr) :
    Smi.from_v8 tIn scope arr = Except.ok (specTruncate tIn v) := by
  have harr : arr = V8Value.integer (toSignedW 32 v) := by
    injection h with h'
    exact h'.symm
  subst harr
  have hwpos : 0 < tIn.width := smallIntTys_width_pos tIn hIn
  have h32 : toSignedW 32 v = (v + 2 ^ 31) % 2 ^ 32 - 2 ^ 31 := by
    have := toSignedW_eq 32 v (by norm_num)
    simpa using this
  show Except.ok (tIn.from_i32 (toSignedW 32 v)) = _
  simp only [SmallIntTy.from_i32, SmallIntTy.cast, specTruncate]
  by_cases hs : tIn.signed
  · simp only [hs, if_true]
    rw [toSignedW_eq tIn.width _ hwpos, h32]
  · rw [Bool.not_eq_true] at hs
    simp only [hs, Bool.false_eq_true, if_false, toUnsignedW, h32]

/-- Witness for C3 at the u64 value 2 to the 32 plus 5, read back as u32:
the round-trip yields 5. -/
theorem smi_roundtrip_truncation_witness :
    Smi.from_v8 u32ty () (V8Value.integer (toSignedW 32 (2 ^ 32 + 5)))
      = Except.ok (specTruncate u32ty (2 ^ 32 + 5)) ∧
    specTruncate u32ty (2 ^ 32 + 5) = 5 :=
  ⟨smi_roundtrip_truncation u64ty u32ty (by decide) (by decide) (2 ^ 32 + 5)
      (by decide) () (V8Value.integer (toSignedW 32 (2 ^ 32 + 5))) rfl,
   by decide⟩

/-- C4: outbound sequence conversion converts elements in original order
and stops at the first element whose conversion fails, propagating exactly
the error of that element with no engine array constructed; on full success it
produces one engine array holding all converted elements in original
order. -/
theorem vec_to_v8_first_failure_atomic {T E : Type}
    (et : Scope → T → Except E V8Value) (scope : Scope) (xs : List T) :
    (∀ (f : Nat) (xf : T) (e : E),
      (∀ j, j < f → ∃ x w, xs[j]? = some x ∧ et scope x = Except.ok w) →
      xs[f]? = some xf → et scope xf = Except.error e →
      VecConv.to_v8 et scope xs = Except.error e) ∧
    (∀ ws : List V8Value, ws.length = xs.length →
      (∀ k, k < xs.length → ∃ x w, xs[k]? = some x ∧
        et scope x = Except.ok w ∧ ws[k]? = some w) →
      VecConv.to_v8 et scope xs = Except.ok (V8Value.array ws)) := by
  constructor
  · intro f xf e hpre hxf herr
    have hc := collectToV8_err et scope xs f xf e hpre hxf herr
    simp only [VecConv.to_v8, hc]
  · intro ws hlen hconv
    have hc := collectToV8_ok et scope xs ws hlen hconv
    simp only [VecConv.to_v8, hc]

/-- Witness for C4: a fallible element converter failing at index 1 of 3
aborts with the error of that element and no array; on an all-valid input the
array is produced in order. -/
theorem vec_to_v8_first_failure_atomic_witness :
    VecConv.to_v8
        (fun (_ : Scope) (n : Int) =>
          if n < 0 then Except.error (AnyError.mk "invalid element")
          else Except.ok (V8Value.integer n)) () [1, -1, 2]
      = Except.error (AnyError.mk "invalid element") ∧
    VecConv.to_v8
        (fun (_ : Scope) (n : Int) =>
          if n < 0 then Except.error (AnyError.mk "invalid element")
          else Except.ok (V8Value.integer n)) () [1, 2]
      = Except.ok (V8Value.array [V8Value.integer 1, V8Value.integer 2]) :=
  ⟨(vec_to_v8_first_failure_atomic
      (fun (_ : Scope) (n : Int) =>
        if n < 0 then Except.error (AnyError.mk "invalid element")
        else Except.ok (V8Value.integer n)) () [1, -1, 2]).1 1 (-1)
      (AnyError.mk "invalid element")
      (fun j hj => by
        match j, hj with
        | 0, _ => exact ⟨1, V8Value.integer 1, by decide, by norm_num⟩)
      (by decide) (by norm_num),
   (vec_to_v8_first_failure_atomic
      (fun (_ : Scope) (n : Int) =>
        if n < 0 then Except.error (AnyError.mk "invalid element")
        else Except.ok (V8Value.integer n)) () [1, 2]).2
      [V8Value.integer 1, V8Value.integer 2] rfl
      (fun k hk => by
        match k, hk with
        | 0, _ => exact ⟨1, V8Value.integer 1, by decide, by norm_num, by simp⟩
        | 1, _ => exact ⟨2, V8Value.integer 2, by decide, by norm_num, by simp⟩)⟩

/-- C5: inbound sequence conversion of an engine array whose elements all
convert successfully returns the native list of exactly the converted
elements, in order, with no destructor run. -/
theorem vec_from_v8_all_success {T E : Type}
    (ef : Scope → V8Value → Except E T) (disp : E → String) (scope : Scope)
    (elems : List V8Value) (zs : List T) (hlen : zs.length = elems.length)
    (hconv : ∀ k, k < elems.length → ∃ v z, elems[k]? = some v ∧
      ef scope v = Except.ok z ∧ zs[k]? = some z) :
    ∃ b, VecConv.from_v8 ef disp scope (V8Value.array elems)
      = ⟨VecResult.ok zs, b, []⟩ := by
  obtain ⟨b, hb⟩ := fromV8Loop_ok ef disp scope (fun i => elems[i]?)
    elems.length 0 (List.replicate elems.length Slot.uninit) [] zs
    (by simp) rfl
    (fun j hj => absurd hj (Nat.not_lt_zero j))
    (fun j _ hj => by rw [List.getElem?_replicate, if_pos (by omega)])
    (by omega)
    (fun k hk => by
      obtain ⟨v, z, h1, h2, h3⟩ := hconv k hk
      exact ⟨v, z, by simpa using h1, h2, h3⟩)
  rw [List.nil_append] at hb
  exact ⟨b, by simp only [VecConv.from_v8]; exact hb⟩

/-- Witness for C5 on a concrete 2-element array and on the 0-length
array. -/
theorem vec_from_v8_all_success_witness :
    (∃ b, VecConv.from_v8 (Smi.from_v8 u32ty) AnyError.msg ()
        (V8Value.array [V8Value.integer 7, V8Value.integer 8])
      = ⟨VecResult.ok [7, 8], b, []⟩) ∧
    (∃ b, VecConv.from_v8 (Smi.from_v8 u32ty) AnyError.msg ()
        (V8Value.array []) = ⟨VecResult.ok [], b, []⟩) :=
  ⟨vec_from_v8_all_success (Smi.from_v8 u32ty) AnyError.msg ()
      [V8Value.integer 7, V8Value.integer 8] [7, 8] rfl
      (fun k hk => by
        match k, hk with
        | 0, _ => exact ⟨V8Value.integer 7, 7, by simp, rfl, rfl⟩
        | 1, _ => exact ⟨V8Value.integer 8, 8, by simp, rfl, rfl⟩),
   vec_from_v8_all_success (Smi.from_v8 u32ty) AnyError.msg () [] [] rfl
      (fun k hk => absurd hk (Nat.not_lt_zero k))⟩

/-- C1: when the first element-conversion failure of the inbound sequence
conversion happens at index f, the conversion returns the element error
wrapped with its display text preserved, runs the destructor of exactly
the already-converted slots below f, each exactly once and in order, and
leaves no slot initialized (no leak, no double release, no partial native
sequence returned). -/
theorem vec_from_v8_first_failure_rollback {T E : Type}
    (ef : Scope → V8Value → Except E T) (disp : E → String) (scope : Scope)
    (elems : List V8Value) (f : Nat) (v : V8Value) (e : E)
    (hf : f < elems.length) (hv : elems[f]? = some v)
    (he : ef scope v = Except.error e)
    (hpre : ∀ j, j < f → ∃ w y, elems[j]? = some w ∧
      ef scope w = Except.ok y) :
    ∃ b2, VecConv.from_v8 ef disp scope (V8Value.array elems)
        = ⟨VecResult.err (AnyError.mk (disp e)), b2, List.range f⟩ ∧
      b2.length = elems.length ∧
      (∀ j, j < f → b2[j]? = some Slot.dropped) ∧
      (∀ j, f ≤ j → j < elems.length → b2[j]? = some Slot.uninit) ∧
      (∀ s ∈ b2, s.isFilled = false) ∧
      List.Nodup (List.range f) ∧
      (∀ j, j ∈ List.range f ↔ j < f) := by
  obtain ⟨b2, hloop, hlen, hdrop, hunin⟩ := fromV8Loop_err ef disp scope
    (fun i => elems[i]?) elems.length 0
    (List.replicate elems.length Slot.uninit) []
    (by simp) rfl
    (fun j hj => absurd hj (Nat.not_lt_zero j))
    (fun j _ hj => by rw [List.getElem?_replicate, if_pos (by omega)])
    f v e (Nat.zero_le f) (by omega)
    (fun j _ hj => hpre j hj) hv he
  refine ⟨b2, by simp only [VecConv.from_v8]; exact hloop, by omega,
    hdrop, fun j hj1 hj2 => hunin j hj1 (by omega), ?_,
    List.nodup_range f, fun j => List.mem_range⟩
  intro s hs
  obtain ⟨n, hn⟩ := List.mem_iff_getElem?.mp hs
  by_cases hnf : n < f
  · rw [hdrop n hnf] at hn
    injection hn with h
    rw [← h]
    rfl
  · have hnlen : n < b2.length := (List.getElem?_eq_some.mp hn).1
    rw [hunin n (by omega) (by omega)] at hn
    injection hn with h
    rw [← h]
    rfl

/-- Witness for C1: a 5-element array whose element at index 2 is of the
wrong kind returns the type-mismatch error of that element, drops exactly
slots 0 and 1, and leaves no slot initialized. -/
theorem vec_from_v8_first_failure_rollback_witness :
    ∃ b2, VecConv.from_v8 (Smi.from_v8 u32ty) AnyError.msg ()
        (V8Value.array [V8Value.integer 1, V8Value.integer 2,
          V8Value.boolean true, V8Value.integer 4, V8Value.integer 5])
        = ⟨VecResult.err (AnyError.mk "Expected u32"), b2, List.range 2⟩ ∧
      b2.length = 5 ∧
      (∀ j, j < 2 → b2[j]? = some Slot.dropped) ∧
      (∀ j, 2 ≤ j → j < 5 → b2[j]? = some Slot.uninit) ∧
      (∀ s ∈ b2, s.isFilled = false) ∧
      List.Nodup (List.range 2) ∧
      (∀ j, j ∈ List.range 2 ↔ j < 2) :=
  vec_from_v8_first_failure_rollback (Smi.from_v8 u32ty) AnyError.msg ()
    [V8Value.integer 1, V8Value.integer 2, V8Value.boolean true,
      V8Value.integer 4, V8Value.integer 5] 2 (V8Value.boolean true)
    (AnyError.mk "Expected u32") (by decide) (by simp) rfl
    (fun j hj => by
      match j, hj with
      | 0, _ => exact ⟨V8Value.integer 1, 1, by simp, rfl⟩
      | 1, _ => exact ⟨V8Value.integer 2, 2, by simp, rfl⟩)

/-- C6: outbound conversion of a sequence of i32 values followed by
inbound conversion yields the original sequence. -/
theorem vec_roundtrip_i32 (scope : Scope) (xs : List Int)
    (hrange : ∀ x ∈ xs, i32ty.inRange x) (arr : V8Value)
    (hout : VecConv.to_v8 (Smi.to_v8 i32ty) scope xs = Except.ok arr) :
    ∃ b, VecConv.from_v8 (Smi.from_v8 i32ty) AnyError.msg scope arr
      = ⟨VecResult.ok xs, b, []⟩ := by
  have hb : ∀ x ∈ xs, -(2 ^ 31) ≤ x ∧ x < 2 ^ 31 := by
    intro x hx
    have := hrange x hx
    simpa [SmallIntTy.inRange, i32ty] using this
  have hids : ∀ x ∈ xs, toSignedW 32 x = x := fun x hx =>
    toSignedW_of_inRange 32 x (by norm_num) (hb x hx).1 (hb x hx).2
  have hcoll := collectToV8_smi_i32 scope xs
  have hmap : xs.map (fun v => V8Value.integer (toSignedW 32 v))
      = xs.map V8Value.integer :=
    List.map_congr_left (fun x hx => by rw [hids x hx])
  rw [hmap] at hcoll
  simp only [VecConv.to_v8, hcoll] at hout
  injection hout with harr
  subst harr
  obtain ⟨b, hbf⟩ := fromV8Loop_ok (Smi.from_v8 i32ty) AnyError.msg scope
    (fun i => (xs.map V8Value.integer)[i]?) (xs.map V8Value.integer).length 0
    (List.replicate (xs.map V8Value.integer).length Slot.uninit) [] xs
    (by simp) rfl
    (fun j hj => absurd hj (Nat.not_lt_zero j))
    (fun j _ hj => by rw [List.getElem?_replicate, if_pos (by omega)])
    (by simp)
    (fun k hk => by
      have hk' : k < xs.length := by simpa using hk
      refine ⟨V8Value.integer (xs.get ⟨k, hk'⟩), xs.get ⟨k, hk'⟩, ?_, ?_, ?_⟩
      · show (List.map V8Value.integer xs)[0 + k]?
            = some (V8Value.integer (xs.get ⟨k, hk'⟩))
        rw [Nat.zero_add, List.getElem?_map, List.getElem?_eq_getElem hk']
        rfl
      · have hz : xs.get ⟨k, hk'⟩ ∈ xs := List.get_mem xs k hk'
        have hstep : Smi.from_v8 i32ty scope (V8Value.integer (xs.get ⟨k, hk'⟩))
            = Except.ok (toSignedW 32 (xs.get ⟨k, hk'⟩)) := rfl
        rw [hstep, hids _ hz]
      · rw [List.getElem?_eq_getElem hk']
        rfl)
  rw [List.nil_append] at hbf
  exact ⟨b, by simp only [VecConv.from_v8]; exact hbf⟩

/-- Witness for C6 on a concrete sequence with a negative entry. -/
theorem vec_roundtrip_i32_witness :
    ∃ b, VecConv.from_v8 (Smi.from_v8 i32ty) AnyError.msg ()
        (V8Value.array [V8Value.integer 3, V8Value.integer (-4)])
      = ⟨VecResult.ok [3, -4], b, []⟩ :=
  vec_roundtrip_i32 () [3, -4] (by decide)
    (V8Value.array [V8Value.integer 3, V8Value.integer (-4)]) (by norm_num [VecConv.to_v8, VecConv.collectToV8, Smi.to_v8, SmallIntTy.as_i32, toSignedW])

/-- C7 counterexample: the sequence adapter is a fallible inbound adapter,
but its array-shape failure message is built from the engine cast error
("Failed to convert from V8: ...") and is not of the form "Expected "
followed by a native type name: the claim that every fallible inbound
adapter, the sequence adapter included, names the expected native type
with its static type name verbatim fails at this input. -/
theorem inbound_error_naming_counterexample :
    (VecConv.from_v8 (Smi.from_v8 u32ty) AnyError.msg ()
        (V8Value.boolean true)).result
      = VecResult.err (AnyError.mk
          "Failed to convert from V8: expected v8::Array, got v8::Boolean") ∧
    ("Expected ".data.isPrefixOf
      "Failed to convert from V8: expected v8::Array, got v8::Boolean".data)
      = false := by
  exact ⟨rfl, by decide⟩

/-- C7 amended: the small-integer and general-numeric inbound adapters
fail with exactly "Expected " followed by their static native type name;
the array-shape failure of the sequence adapter carries the engine cast error
prefixed by "Failed to convert from V8: ", and its element failure wraps
the own error of the failing element, preserving that message. -/
theorem inbound_error_naming_amended :
    (∀ (t : SmallIntTy) (scope : Scope) (value : V8Value) (e : AnyError),
      Smi.from_v8 t scope value = Except.error e →
      e.msg = "Expected " ++ t.name) ∧
    (∀ (T : Type) (nm : Numeric T) (scope : Scope) (value : V8Value)
      (e : AnyError), Number.from_v8 nm scope value = Except.error e →
      e.msg = "Expected " ++ nm.name) ∧
    (∀ (T E : Type) (ef : Scope → V8Value → Except E T) (disp : E → String)
      (scope : Scope) (value : V8Value),
      (∀ elems, value ≠ V8Value.array elems) →
      (VecConv.from_v8 ef disp scope value).result
        = VecResult.err (AnyError.mk ("Failed to convert from V8: "
            ++ VecConv.castErrorMsg value))) ∧
    (∀ (T E : Type) (ef : Scope → V8Value → Except E T) (disp : E → String)
      (scope : Scope) (elems : List V8Value) (f : Nat) (v : V8Value) (e : E),
      f < elems.length → elems[f]? = some v → ef scope v = Except.error e →
      (∀ j, j < f → ∃ w y, elems[j]? = some w ∧ ef scope w = Except.ok y) →
      ∃ b, VecConv.from_v8 ef disp scope (V8Value.array elems)
        = ⟨VecResult.err (AnyError.mk (disp e)), b, List.range f⟩) := by
  refine ⟨?_, ?_, ?_, ?_⟩
  · intro t scope value e h
    unfold Smi.from_v8 at h
    cases hio : to_i32_option value with
    | some n => rw [hio] at h; cases h
    | none =>
      rw [hio] at h
      injection h with h'
      rw [← h']
      rfl
  · intro T nm scope value e h
    unfold Number.from_v8 at h
    cases hio : nm.from_value value with
    | some x => rw [hio] at h; cases h
    | none =>
      rw [hio] at h
      injection h with h'
      rw [← h']
      rfl
  · intro T E ef disp scope value hna
    cases value with
    | array elems => exact absurd rfl (hna elems)
    | integer n => rfl
    | number x => rfl
    | boolean b => rfl
    | stringVal s => rfl
    | nullVal => rfl
    | undefinedVal => rfl
    | object => rfl
  · intro T E ef disp scope elems f v e hf hv he hpre
    obtain ⟨b2, hloop, _, _, _⟩ := fromV8Loop_err ef disp scope
      (fun i => elems[i]?) elems.length 0
      (List.replicate elems.length Slot.uninit) []
      (by simp) rfl
      (fun j hj => absurd hj (Nat.not_lt_zero j))
      (fun j _ hj => by rw [List.getElem?_replicate, if_pos (by omega)])
      f v e (Nat.zero_le f) (by omega)
      (fun j _ hj => hpre j hj) hv he
    exact ⟨b2, by simp only [VecConv.from_v8]; exact hloop⟩

/-- Witness for the C7 amended theorem at concrete inputs for each of the
four adapters. -/
theorem inbound_error_naming_amended_witness :
    ("Expected u32" = "Expected " ++ u32ty.name) ∧
    ("Expected f64" = "Expected " ++ f64Numeric.name) ∧
    ((VecConv.from_v8 (Smi.from_v8 u32ty) AnyError.msg ()
        (V8Value.boolean true)).result
      = VecResult.err (AnyError.mk ("Failed to convert from V8: "
          ++ VecConv.castErrorMsg (V8Value.boolean true)))) ∧
    (∃ b, VecConv.from_v8 (Smi.from_v8 u32ty) AnyError.msg ()
        (V8Value.array [V8Value.boolean true])
      = ⟨VecResult.err (AnyError.mk "Expected u32"), b, List.range 0⟩) :=
  ⟨inbound_error_naming_amended.1 u32ty () (V8Value.boolean true)
      (AnyError.mk "Expected u32") rfl,
   inbound_error_naming_amended.2.1 Rat f64Numeric () (V8Value.boolean true)
      (AnyError.mk "Expected f64") rfl,
   inbound_error_naming_amended.2.2.1 Int AnyError (Smi.from_v8 u32ty)
      AnyError.msg () (V8Value.boolean true)
      (fun elems h => V8Value.noConfusion h),
   inbound_error_naming_amended.2.2.2 Int AnyError (Smi.from_v8 u32ty)
      AnyError.msg () [V8Value.boolean true] 0 (V8Value.boolean true)
      (AnyError.mk "Expected u32") (by decide) (by simp) rfl
      (fun j hj => absurd hj (Nat.not_lt_zero j))⟩

/-- C10: the inbound sequence conversion unwraps every indexed read: a
read yielding no value makes the loop panic rather than return a typed
error; in the conversion itself every indexed read is below the reported
array length and yields a value, so the conversion never reaches the
panic branch. -/
theorem unwrap_indexed_read :
    (∀ (T E : Type) (ef : Scope → V8Value → Except E T) (disp : E → String)
      (scope : Scope) (read : Nat → Option V8Value) (rem i : Nat)
      (buf : List (Slot T)) (f : Nat), i ≤ f → f < i + rem →
      (∀ j, i ≤ j → j < f → ∃ w y, read j = some w ∧
        ef scope w = Except.ok y) →
      read f = none →
      ∃ b, VecConv.fromV8Loop ef disp scope read rem i buf
        = ⟨VecResult.panicked, b, []⟩) ∧
    (∀ (elems : List V8Value) (i : Nat), i < elems.length →
      (elems[i]?).isSome) ∧
    (∀ (T E : Type) (ef : Scope → V8Value → Except E T) (disp : E → String)
      (scope : Scope) (value : V8Value),
      (VecConv.from_v8 ef disp scope value).result ≠ VecResult.panicked) :=
  ⟨fun T E ef disp scope read rem i buf f h1 h2 h3 h4 =>
      fromV8Loop_panic ef disp scope read rem i buf f h1 h2 h3 h4,
   from_v8_reads_some,
   fun T E ef disp scope value => from_v8_no_panic ef disp scope value⟩

/-- Witness for C10: a read function yielding no value at index 0 makes
the loop panic; the conversion of a concrete engine array does not
panic. -/
theorem unwrap_indexed_read_witness :
    (∃ b, VecConv.fromV8Loop (Smi.from_v8 u32ty) AnyError.msg ()
        (fun _ => none) 1 0 [Slot.uninit]
      = ⟨VecResult.panicked, b, []⟩) ∧
    (([V8Value.integer 1][0]?).isSome) ∧
    ((VecConv.from_v8 (Smi.from_v8 u32ty) AnyError.msg ()
        (V8Value.array [V8Value.integer 1])).result ≠ VecResult.panicked) :=
  ⟨unwrap_indexed_read.1 Int AnyError (Smi.from_v8 u32ty) AnyError.msg ()
      (fun _ => none) 1 0 [Slot.uninit] 0 (Nat.le_refl 0) (by omega)
      (fun j _ hj => absurd hj (Nat.not_lt_zero j)) rfl,
   unwrap_indexed_read.2.1 [V8Value.integer 1] 0 (by decide),
   unwrap_indexed_read.2.2 Int AnyError (Smi.from_v8 u32ty) AnyError.msg ()
      (V8Value.array [V8Value.integer 1])⟩

end DenoConvert
